import Mathlib

/-!
Verification of the helix-protocol microblock seed-mining and reconstruction
scheme.  The repository's visible source is the React dashboard; the mining
core (byte generator, block splitter, mining ledger, reconstructor) is only
called from it.  Definitions taken from the dashboard source are embedded
directly; missing core operations are modelled from the specification and
carry a doc comment saying so.  Bytes are modelled as `Nat` with explicit
`% 256` where the code truncates, byte strings as `List Nat`, JS strings as
`List Char`.
-/

namespace Helix

/-- Modelled from the spec: the byte-generation algorithm itself is absent
from the available source (spec section 9 calls it an open question and says
any deterministic expansion satisfying the section 4.1 contract is
conformant).  We model it as a 32-bit multiplicative hash of the seed,
chained with a per-byte counter, i.e. a hash(seed concat counter) expansion
as suggested in section 4.1. -/
def mix (h b : Nat) : Nat := ((h + b) * 16777619) % 4294967296

/-- Modelled from the spec: hash of the whole seed byte string, folding the
chaining step over the seed. -/
def seedHash (seed : List Nat) : Nat := seed.foldl mix 2166136261

/-- Modelled from the spec: byte number `i` of the stream expanded from
`seed`. -/
def genByte (seed : List Nat) (i : Nat) : Nat := mix (seedHash seed) i % 256

/-- Modelled from the spec: `generate(seed, length)` returns the first
`length` bytes of the deterministic stream expanded from `seed`
(spec section 4.1). -/
def generate (seed : List Nat) (len : Nat) : List Nat :=
  (List.range len).map (genByte seed)

/-- Error taxonomy of spec section 7. -/
inductive HelixError
  | InvalidConfig
  | InvalidInput
  | InvalidSeed
  | AlreadyMined
  | IncompleteRawData
  | Exhausted
deriving DecidableEq, Repr

/-- Modelled from the spec: pad a block with zero bytes up to `bs` bytes
(spec section 4.2). -/
def padBlock (bs : Nat) (b : List Nat) : List Nat :=
  b ++ List.replicate (bs - b.length) 0

/-- Modelled from the spec: fuel-indexed worker for the block splitter; the
fuel is only there to make the recursion structural, `p.length` fuel is
always enough when `bs ≥ 1`. -/
def splitBlocksF : Nat → List Nat → Nat → List (List Nat)
  | _, [], _ => []
  | 0, _ :: _, _ => []
  | fuel + 1, p, bs => padBlock bs (p.take bs) :: splitBlocksF fuel (p.drop bs) bs

/-- Modelled from the spec: partition a payload into `bs`-byte microblocks,
zero-padding the final block (spec section 4.2); meaningful for `bs ≥ 1`. -/
def splitBlocks (p : List Nat) (bs : Nat) : List (List Nat) :=
  splitBlocksF p.length p bs

/-- Modelled from the spec: `split(payload, block_size)` rejects
`block_size < 1` with `InvalidConfig` (spec section 4.2). -/
def split (p : List Nat) (bs : Nat) : Except HelixError (List (List Nat)) :=
  if bs < 1 then .error .InvalidConfig else .ok (splitBlocks p bs)

/-- Strip trailing zero bytes: embeds the reconstruction loop of
`StatementBox` in `PendingStatements.jsx` (`while (payloadBytes.length &&
payloadBytes[payloadBytes.length - 1] === 0) payloadBytes.pop()`). -/
def trimTrailingZeros (l : List Nat) : List Nat :=
  (l.reverse.dropWhile (fun b => b == 0)).reverse

/-- A statement: immutable payload plus configured microblock size
(spec section 3).  The opaque identifier is irrelevant to the verified
properties and omitted; the ledger below is the per-statement slice of the
global ledger. -/
structure Statement where
  payload : List Nat
  blockSize : Nat
deriving DecidableEq, Repr

/-- Modelled from the spec: the per-statement Mining Ledger, a mapping from
block index to the accepted seed (spec section 3; attribution and timestamp
fields are opaque passthrough and omitted). -/
abbrev Ledger := List (Nat × List Nat)

/-- Modelled from the spec: number of microblocks of a statement. -/
def blockCount (st : Statement) : Nat :=
  (splitBlocks st.payload st.blockSize).length

/-- Modelled from the spec: the expected bytes of block `i`, i.e. the
microblock the splitter produced at that index. -/
def expectedBytes (st : Statement) (i : Nat) : Option (List Nat) :=
  (splitBlocks st.payload st.blockSize)[i]?

/-- Outcome of a `record` call (spec section 4.4): `Accepted`,
`Rejected(AlreadyMined)`, or the `InvalidSeed` failure. -/
inductive RecordResult
  | Accepted
  | RejectedAlreadyMined
  | InvalidSeed
deriving DecidableEq, Repr

/-- Modelled from the spec: `record(statement_id, index, seed)`
(spec section 4.4).  Re-verifies `generate(seed, block_size)` against the
expected block bytes before anything else and fails with `InvalidSeed` when
the check fails (section 8 says a non-verifying seed "always" returns
`InvalidSeed`); an already-mined index with a verifying seed is rejected as
`AlreadyMined`; otherwise the seed is accepted and stored. -/
def record (st : Statement) (led : Ledger) (i : Nat) (seed : List Nat) :
    RecordResult × Ledger :=
  match expectedBytes st i with
  | none => (.InvalidSeed, led)
  | some target =>
    if generate seed st.blockSize = target then
      match led.lookup i with
      | some _ => (.RejectedAlreadyMined, led)
      | none => (.Accepted, (i, seed) :: led)
    else (.InvalidSeed, led)

/-- Fold a sequence of `record` submissions into the ledger. -/
def applyRecords (st : Statement) (led : Ledger) :
    List (Nat × List Nat) → Ledger
  | [] => led
  | (i, s) :: rest => applyRecords st (record st led i s).2 rest

/-- One row of the `status` view (spec section 4.4). -/
structure StatusEntry where
  index : Nat
  mined : Bool
  seed : Option (List Nat)
deriving DecidableEq, Repr

/-- Modelled from the spec: `status(statement_id)` returns one entry per
block index over the full range, marking it mined exactly when the ledger
holds a seed for it (spec section 4.4). -/
def statusOf (st : Statement) (led : Ledger) : List StatusEntry :=
  (List.range (blockCount st)).map fun i =>
    { index := i, mined := (led.lookup i).isSome, seed := led.lookup i }

/-- Number of mined indices of a statement. -/
def minedCount (st : Statement) (led : Ledger) : Nat :=
  ((List.range (blockCount st)).filter fun i => (led.lookup i).isSome).length

/-- Whether every block index is mined. -/
def allMined (st : Statement) (led : Ledger) : Bool :=
  (List.range (blockCount st)).all fun i => (led.lookup i).isSome

/-- Total length in bytes of all accepted seeds. -/
def totalSeedBytes (led : Ledger) (n : Nat) : Nat :=
  ((List.range n).map fun i => ((led.lookup i).getD []).length).sum

/-- Compression metric as computed by the dashboard source
(`Statement` component in `SubmitStatement.jsx`:
`Math.round(((original_size - compressed_size) / original_size) * 100)`),
with JS number arithmetics modelled as exact rationals; JS `Math.round`
rounds half away from zero toward positive infinity, which is Mathlib
`round`. -/
def compressionPct (originalSize compressedSize : Nat) : Int :=
  round ((((originalSize : ℚ) - (compressedSize : ℚ)) / (originalSize : ℚ)) * 100)

/-- Result of reconstruction: the reassembled payload bytes (textual decode
is not modelled, the bytes are the pre-decode value) and the compression
metric, present only for fully mined statements. -/
structure ReconOutput where
  bytes : List Nat
  compressionPercent : Option Int
deriving DecidableEq, Repr

/-- Modelled from the spec: `reconstruct(statement_id)` (spec section 4.5).
Each mined block is regenerated from its seed, unmined blocks fall back to
the retained raw block bytes; blocks are concatenated in index order and
trailing zero padding is stripped (as in the `StatementBox` source); the
compression metric is computed only when every block is mined (and, as in
the source, the original size is nonzero). -/
def reconstruct (st : Statement) (led : Ledger) : ReconOutput :=
  let blocks := splitBlocks st.payload st.blockSize
  let n := blocks.length
  let outBlocks := (List.range n).map fun i =>
    match led.lookup i with
    | some s => generate s st.blockSize
    | none => blocks.getD i []
  { bytes := trimTrailingZeros outBlocks.flatten
    compressionPercent :=
      if allMined st led ∧ st.payload.length ≠ 0 then
        some (compressionPct st.payload.length (totalSeedBytes led n))
      else none }

/-- A concrete statement used by the witnesses: its single 4-byte block is
by construction exactly the generator output of the seed `[7]`. -/
def demoStatement : Statement := { payload := generate [7] 4, blockSize := 4 }

/-! Embedding of `decodeBlock` from
`dashboard/frontend/src/components/PendingStatements.jsx`.  JS strings are
modelled as `List Char`. -/

/-- ASCII whitespace stripped by the forgiving-base64 algorithm behind the
JS `atob`. -/
def isB64Ws (c : Char) : Bool :=
  c = '\t' ∨ c = '\n' ∨ c = '\x0c' ∨ c = '\r' ∨ c = ' '

/-- Value of one base64 alphabet character, `none` outside the alphabet. -/
def b64Val (c : Char) : Option Nat :=
  if 'A' ≤ c ∧ c ≤ 'Z' then some (c.toNat - 65)
  else if 'a' ≤ c ∧ c ≤ 'z' then some (c.toNat - 71)
  else if '0' ≤ c ∧ c ≤ '9' then some (c.toNat + 4)
  else if c = '+' then some 62
  else if c = '/' then some 63
  else none

/-- Strip the up-to-two trailing padding `=` characters when the length is a
multiple of four, as forgiving-base64 does. -/
def stripB64Padding (cs : List Char) : List Char :=
  if cs.length % 4 = 0 then
    match cs.reverse with
    | '=' :: '=' :: rest => rest.reverse
    | '=' :: rest => rest.reverse
    | _ => cs
  else cs

/-- Turn the 6-bit groups into bytes, emitting a byte whenever at least
eight bits have accumulated and discarding leftover bits at the end. -/
def sextetsToBytes : List Nat → Nat → Nat → List Nat
  | [], _, _ => []
  | v :: rest, buf, bits =>
    let buf2 := buf * 64 + v
    let bits2 := bits + 6
    if 8 ≤ bits2 then
      (buf2 / 2 ^ (bits2 - 8)) % 256 ::
        sextetsToBytes rest (buf2 % 2 ^ (bits2 - 8)) (bits2 - 8)
    else sextetsToBytes rest buf2 bits2

/-- The JS `atob` called by `decodeBlock` (forgiving-base64 decode):
`none` models the `InvalidCharacterError` throw caught by the source's
`try`/`catch`. -/
def atob (s : List Char) : Option (List Nat) :=
  let cs := stripB64Padding (s.filter fun c => !isB64Ws c)
  if cs.length % 4 = 1 then none
  else
    let vals := cs.map b64Val
    if vals.all Option.isSome then some (sextetsToBytes (vals.reduceOption) 0 0)
    else none

/-- Whether `c` is one of the whitespace characters `parseInt` skips. -/
def isJsWs (c : Char) : Bool :=
  c = ' ' ∨ c = '\t' ∨ c = '\n' ∨ c = '\r' ∨ c = '\x0b' ∨ c = '\x0c'

/-- Hexadecimal digit value. -/
def hexDigit (c : Char) : Option Nat :=
  if '0' ≤ c ∧ c ≤ '9' then some (c.toNat - 48)
  else if 'a' ≤ c ∧ c ≤ 'f' then some (c.toNat - 87)
  else if 'A' ≤ c ∧ c ≤ 'F' then some (c.toNat - 55)
  else none

/-- The JS `parseInt(s, 16)` used by `decodeBlock`: skip leading whitespace,
take an optional sign and an optional `0x` prefix, then the longest prefix
of hexadecimal digits; `none` models the `NaN` result when no digit is
found. -/
def parseIntHex (s : List Char) : Option Int :=
  let cs := s.dropWhile isJsWs
  let sign : Int := match cs with
    | '-' :: _ => -1
    | _ => 1
  let cs := match cs with
    | '-' :: rest => rest
    | '+' :: rest => rest
    | _ => cs
  let cs := match cs with
    | '0' :: 'x' :: rest => rest
    | '0' :: 'X' :: rest => rest
    | _ => cs
  let digits := cs.takeWhile fun c => (hexDigit c).isSome
  if digits.isEmpty then none
  else some (sign * (digits.foldl (fun a c => a * 16 + ((hexDigit c).getD 0 : Int)) 0))

/-- The `ToUint8` coercion applied by `Uint8Array.from` to each element:
`NaN` becomes `0`, other numbers are taken modulo 256. -/
def toUint8 (v : Option Int) : Nat :=
  match v with
  | none => 0
  | some i => (i % 256).toNat

/-- Split a character list into consecutive pairs (a final lone character
stays alone), mirroring the `for (let i = 0; i < encoded.length; i += 2)`
slicing loop of `decodeBlock`. -/
def chunkPairs : List Char → List (List Char)
  | [] => []
  | [a] => [[a]]
  | a :: b :: rest => [a, b] :: chunkPairs rest

/-- The hex fallback branch of `decodeBlock`: parse each 2-character slice
with `parseInt(_, 16)` and coerce through `Uint8Array.from`. -/
def hexFallback (s : List Char) : List Nat :=
  (chunkPairs s).map fun pair => toUint8 (parseIntHex pair)

/-- `decodeBlock` from `PendingStatements.jsx`: try `atob`, and on any
failure fall back to hexadecimal pair parsing. -/
def decodeBlock (encoded : List Char) : List Nat :=
  match atob encoded with
  | some bytes => bytes
  | none => hexFallback encoded

/-! Embedding of the `PendingStatements` fetch handler. -/

/-- The fields of one statement object relevant to the pending view:
`finalized` is the truthiness of the statement's `finalized` flag. -/
structure StmtView where
  statementId : String
  finalized : Bool
deriving DecidableEq, Repr

/-- The JSON body of the `/api/statements/active_status` response: either an
array of statements or some non-array value. -/
inductive ApiResponse
  | arr (xs : List StmtView)
  | nonArray
deriving DecidableEq, Repr

/-- The fetch handler of `PendingStatements`:
`const data = Array.isArray(res.data) ? res.data : [];
setStatements(data.filter((s) => !s.finalized));`. -/
def pendingStatements (res : ApiResponse) : List StmtView :=
  (match res with
    | .arr xs => xs
    | .nonArray => []).filter fun s => !s.finalized

/-! Helper lemmas about the block splitter. -/

theorem splitBlocksF_nil (fuel bs : Nat) : splitBlocksF fuel [] bs = [] := by
  cases fuel <;> rfl

theorem splitBlocksF_cons (fuel bs a : Nat) (rest : List Nat) :
    splitBlocksF (fuel + 1) (a :: rest) bs =
      padBlock bs ((a :: rest).take bs) ::
        splitBlocksF fuel ((a :: rest).drop bs) bs := rfl

theorem ceil_div_step (L bs : Nat) (h1 : 1 ≤ L) (hbs : 1 ≤ bs) :
    (L + bs - 1) / bs = (L - bs + bs - 1) / bs + 1 := by
  rcases le_or_lt L bs with h | h
  · have e1 : L - bs + bs - 1 = bs - 1 := by omega
    rw [e1, Nat.div_eq_of_lt (by omega : bs - 1 < bs)]
    simpa using Nat.div_eq_of_lt_le (k := 1) (by omega) (by omega)
  · have e1 : L + bs - 1 = (L - 1) + bs := by omega
    have e2 : L - bs + bs - 1 = L - 1 := by omega
    rw [e1, e2, Nat.add_div_right _ (by omega : 0 < bs)]

theorem splitBlocksF_length (bs : Nat) (hbs : 1 ≤ bs) :
    ∀ (fuel : Nat) (p : List Nat), p.length ≤ fuel →
      (splitBlocksF fuel p bs).length = (p.length + bs - 1) / bs := by
  intro fuel
  induction fuel with
  | zero =>
    intro p hp
    have hnil : p = [] := List.length_eq_zero.mp (Nat.le_zero.mp hp)
    subst hnil
    simp [splitBlocksF_nil, Nat.div_eq_of_lt (by omega : bs - 1 < bs)]
  | succ fuel ih =>
    intro p hp
    cases p with
    | nil => simp [splitBlocksF_nil, Nat.div_eq_of_lt (by omega : bs - 1 < bs)]
    | cons a rest =>
      have hdrop : ((a :: rest).drop bs).length ≤ fuel := by
        simp only [List.length_drop, List.length_cons]
        simp only [List.length_cons] at hp
        omega
      rw [splitBlocksF_cons, List.length_cons, ih _ hdrop, List.length_drop,
        List.length_cons]
      exact (ceil_div_step (rest.length + 1) bs (by omega) hbs).symm

theorem splitBlocksF_block_length (bs : Nat) :
    ∀ (fuel : Nat) (p b : List Nat), b ∈ splitBlocksF fuel p bs → b.length = bs := by
  intro fuel
  induction fuel with
  | zero =>
    intro p b hb
    cases p <;> simp [splitBlocksF_nil, splitBlocksF] at hb
  | succ fuel ih =>
    intro p b hb
    cases p with
    | nil => simp [splitBlocksF_nil] at hb
    | cons a rest =>
      rw [splitBlocksF_cons] at hb
      rcases List.mem_cons.mp hb with h | h
      · subst h
        simp only [padBlock, List.length_append, List.length_replicate,
          List.length_take, List.length_cons]
        omega
      · exact ih _ b h

theorem splitBlocksF_flatten (bs : Nat) (hbs : 1 ≤ bs) :
    ∀ (fuel : Nat) (p : List Nat), p.length ≤ fuel →
      ∃ k, (splitBlocksF fuel p bs).flatten = p ++ List.replicate k 0 := by
  intro fuel
  induction fuel with
  | zero =>
    intro p hp
    have hnil : p = [] := List.length_eq_zero.mp (Nat.le_zero.mp hp)
    subst hnil
    exact ⟨0, by simp [splitBlocksF_nil]⟩
  | succ fuel ih =>
    intro p hp
    cases p with
    | nil => exact ⟨0, by simp [splitBlocksF_nil]⟩
    | cons a rest =>
      have hdrop : ((a :: rest).drop bs).length ≤ fuel := by
        simp only [List.length_drop, List.length_cons]
        simp only [List.length_cons] at hp
        omega
      rcases le_or_lt (rest.length + 1) bs with h | h
      · have hdropnil : (a :: rest).drop bs = [] := by
          apply List.eq_nil_of_length_eq_zero
          simp only [List.length_drop, List.length_cons]
          omega
        refine ⟨bs - (rest.length + 1), ?_⟩
        rw [splitBlocksF_cons, hdropnil, splitBlocksF_nil]
        have htake : (a :: rest).take bs = a :: rest :=
          List.take_of_length_le (by simpa using h)
        simp [padBlock, htake]
      · obtain ⟨k, hk⟩ := ih _ hdrop
        refine ⟨k, ?_⟩
        have hlen : ((a :: rest).take bs).length = bs := by
          simp only [List.length_take, List.length_cons]
          omega
        rw [splitBlocksF_cons]
        simp only [List.flatten_cons, hk, padBlock, hlen, Nat.sub_self,
          List.replicate_zero, List.append_nil]
        rw [← List.append_assoc, List.take_append_drop]

theorem splitBlocks_length (p : List Nat) (bs : Nat) (hbs : 1 ≤ bs) :
    (splitBlocks p bs).length = (p.length + bs - 1) / bs :=
  splitBlocksF_length bs hbs p.length p le_rfl

theorem splitBlocks_block_length (p : List Nat) (bs : Nat) (b : List Nat)
    (hb : b ∈ splitBlocks p bs) : b.length = bs :=
  splitBlocksF_block_length bs p.length p b hb

theorem splitBlocks_flatten (p : List Nat) (bs : Nat) (hbs : 1 ≤ bs) :
    ∃ k, (splitBlocks p bs).flatten = p ++ List.replicate k 0 :=
  splitBlocksF_flatten bs hbs p.length p le_rfl

/-! Helper lemmas about trailing-zero trimming. -/

theorem dropWhile_zero_replicate (l : List Nat) (k : Nat) :
    (List.replicate k 0 ++ l).dropWhile (fun b => b == 0) =
      l.dropWhile (fun b => b == 0) := by
  induction k with
  | zero => simp
  | succ k ih => simp [List.replicate_succ, ih]

theorem trimTrailingZeros_append_replicate (p : List Nat) (k : Nat) :
    trimTrailingZeros (p ++ List.replicate k 0) = trimTrailingZeros p := by
  unfold trimTrailingZeros
  rw [List.reverse_append, List.reverse_replicate, dropWhile_zero_replicate]

theorem trimTrailingZeros_eq_self (p : List Nat) (hp : p.getLast? ≠ some 0) :
    trimTrailingZeros p = p := by
  unfold trimTrailingZeros
  cases hrev : p.reverse with
  | nil =>
    have : p = [] := by simpa using congrArg List.reverse hrev
    simp [this]
  | cons a t =>
    have ha : a ≠ 0 := by
      intro h0
      apply hp
      rw [← List.head?_reverse, hrev, h0]
      rfl
    rw [List.dropWhile_cons, if_neg (by simp [ha]), ← hrev,
      List.reverse_reverse]

/-! Helper lemmas about the mining ledger. -/

theorem record_accepted_inv (st : Statement) (led : Ledger) (i : Nat)
    (s : List Nat) (h : (record st led i s).1 = .Accepted) :
    (record st led i s).2 = (i, s) :: led ∧ led.lookup i = none := by
  cases hexp : expectedBytes st i with
  | none => simp [record, hexp] at h
  | some target =>
    by_cases hg : generate s st.blockSize = target
    · cases hl : led.lookup i with
      | some v => simp [record, hexp, hg, hl] at h
      | none => exact ⟨by simp [record, hexp, hg, hl], rfl⟩
    · simp [record, hexp, hg] at h

theorem record_preserves_lookup (st : Statement) (led : Ledger) (i j : Nat)
    (s v : List Nat) (h : led.lookup j = some v) :
    (record st led i s).2.lookup j = some v := by
  cases hexp : expectedBytes st i with
  | none => simpa [record, hexp] using h
  | some target =>
    by_cases hg : generate s st.blockSize = target
    · cases hl : led.lookup i with
      | some w => simpa [record, hexp, hg, hl] using h
      | none =>
        have hij : j ≠ i := by
          intro e
          rw [e, hl] at h
          cases h
        simpa [record, hexp, hg, hl, List.lookup,
          beq_eq_false_iff_ne.mpr hij] using h
    · simpa [record, hexp, hg] using h

theorem applyRecords_preserves_lookup (st : Statement) :
    ∀ (calls : List (Nat × List Nat)) (led : Ledger) (j : Nat) (v : List Nat),
      led.lookup j = some v → (applyRecords st led calls).lookup j = some v := by
  intro calls
  induction calls with
  | nil => intro led j v h; exact h
  | cons c rest ih =>
    intro led j v h
    obtain ⟨i, s⟩ := c
    exact ih _ j v (record_preserves_lookup st led i j s v h)

theorem record_mined_not_accepted (st : Statement) (led : Ledger) (i : Nat)
    (s v : List Nat) (hl : led.lookup i = some v) :
    (record st led i s).1 ≠ .Accepted := by
  cases hexp : expectedBytes st i with
  | none => simp [record, hexp]
  | some target =>
    by_cases hg : generate s st.blockSize = target
    · simp [record, hexp, hg, hl]
    · simp [record, hexp, hg]

theorem record_mined_valid_rejected (st : Statement) (led : Ledger) (i : Nat)
    (s v t : List Nat) (hl : led.lookup i = some v)
    (ht : expectedBytes st i = some t) (hg : generate s st.blockSize = t) :
    (record st led i s).1 = .RejectedAlreadyMined := by
  simp [record, ht, hg, hl]

/-- Generic counting helper: the lengths of a filter and of the
complementary filter add up to the whole list. -/
theorem length_filter_add_length_filter_neg {α : Type} (l : List α) (p : α → Bool) :
    (l.filter p).length + (l.filter fun a => !(p a)).length = l.length := by
  induction l with
  | nil => rfl
  | cons a t ih =>
    by_cases h : p a <;> simp [List.filter_cons, h, ← ih] <;> omega

/-! Helper lemmas about `decodeBlock`. -/

theorem sextetsToBytes_lt (l : List Nat) :
    ∀ (buf bits : Nat), ∀ b ∈ sextetsToBytes l buf bits, b < 256 := by
  induction l with
  | nil =>
    intro buf bits b hb
    simp [sextetsToBytes] at hb
  | cons v rest ih =>
    intro buf bits b hb
    simp only [sextetsToBytes] at hb
    split at hb
    · rcases List.mem_cons.mp hb with h | h
      · subst h
        exact Nat.mod_lt _ (by omega)
      · exact ih _ _ b h
    · exact ih _ _ b hb

theorem atob_bytes_lt (s : List Char) (bytes : List Nat)
    (h : atob s = some bytes) : ∀ b ∈ bytes, b < 256 := by
  simp only [atob] at h
  split at h
  · cases h
  · split at h
    · injection h with h
      subst h
      exact fun b hb => sextetsToBytes_lt _ 0 0 b hb
    · cases h

theorem toUint8_lt (v : Option Int) : toUint8 v < 256 := by
  cases v with
  | none => simp [toUint8]
  | some i =>
    show (i % 256).toNat < 256
    have h1 : 0 ≤ i % 256 := Int.emod_nonneg i (by decide)
    have h2 : i % 256 < 256 := Int.emod_lt_of_pos i (by decide)
    omega

theorem hexFallback_lt (s : List Char) : ∀ b ∈ hexFallback s, b < 256 := by
  intro b hb
  obtain ⟨pair, hpair, hval⟩ := List.mem_map.mp hb
  rw [← hval]
  exact toUint8_lt _

/-- A concrete partially mined statement used by witnesses: three 2-byte
blocks of which only index 1 is mined. -/
def pendingDemo : Statement := { payload := [1, 2, 3, 4, 5], blockSize := 2 }

/-! The claims. -/

/-- C1, counterexample: the round-trip claim fails as stated for a payload
that itself ends in a zero byte.  The statement with payload `[0]` and
block size 1 is fully mined by the seed `[59]` (the `record` acceptance
shows the seed verifies), yet reconstruction trims the real trailing zero
byte and returns `[]`, not `[0]`. -/
theorem roundtrip_counterexample :
    (record { payload := [0], blockSize := 1 } [] 0 [59]).1 = .Accepted ∧
    (reconstruct { payload := [0], blockSize := 1 } [(0, [59])]).bytes ≠ [0] := by
  decide

/-- C1 (amended): for every payload `P` that does not end in a zero byte
and every block size `S ≥ 1`, reconstructing a fully mined statement
produced by `split(P, S)` - concatenating all microblocks' bytes in index
order and stripping trailing zero padding - returns bytes equal to `P`. -/
theorem reconstruct_split_roundtrip (p : List Nat) (bs : Nat) (led : Ledger)
    (hbs : 1 ≤ bs) (hp : p.getLast? ≠ some 0)
    (hm : ∀ i, i < (splitBlocks p bs).length →
        ∃ s, led.lookup i = some s ∧
          generate s bs = (splitBlocks p bs).getD i []) :
    (reconstruct { payload := p, blockSize := bs } led).bytes = p := by
  have houtmap : ((List.range (splitBlocks p bs).length).map fun i =>
      (match led.lookup i with
        | some s => generate s bs
        | none => (splitBlocks p bs).getD i [])) = splitBlocks p bs := by
    apply List.ext_getElem
    · simp
    · intro n h1 h2
      simp only [List.getElem_map, List.getElem_range]
      obtain ⟨s, hs, hgen⟩ := hm n h2
      simp only [hs, hgen, List.getD_eq_getElem _ _ h2]
  obtain ⟨k, hk⟩ := splitBlocks_flatten p bs hbs
  simp only [reconstruct]
  rw [houtmap, hk, trimTrailingZeros_append_replicate]
  exact trimTrailingZeros_eq_self p hp

/-- C1 witness: the demo statement round-trips through a fully mined
ledger. -/
theorem reconstruct_split_roundtrip_witness :
    ((1 : Nat) ≤ 4 ∧ (generate [7] 4).getLast? ≠ some 0) ∧
    (reconstruct { payload := generate [7] 4, blockSize := 4 }
      [(0, [7])]).bytes = generate [7] 4 :=
  ⟨⟨by decide, by decide⟩,
    reconstruct_split_roundtrip (generate [7] 4) 4 [(0, [7])] (by decide)
      (by decide)
      (fun i hi => by
        have hlen : (splitBlocks (generate [7] 4) 4).length = 1 := by decide
        have hi0 : i = 0 := by omega
        subst hi0
        exact ⟨[7], rfl, by decide⟩)⟩

/-- C2: the generator is deterministic (equal arguments give equal output;
in this pure embedding that is purity itself) and stream-extending: for
`L1 ≤ L2` the first `L1` bytes of `generate(seed, L2)` are exactly
`generate(seed, L1)`. -/
theorem generate_deterministic_extension (seed : List Nat) (L1 L2 : Nat)
    (h : L1 ≤ L2) :
    (∀ seed2 len2, seed2 = seed → len2 = L1 →
      generate seed2 len2 = generate seed L1) ∧
    (generate seed L2).take L1 = generate seed L1 := by
  refine ⟨fun seed2 len2 h1 h2 => by rw [h1, h2], ?_⟩
  unfold generate
  rw [← List.map_take, List.take_range, inf_eq_left.mpr h]

/-- C2 witness at seed `[3]`, lengths 2 and 5. -/
theorem generate_deterministic_extension_witness :
    (2 : Nat) ≤ 5 ∧ (generate [3] 5).take 2 = generate [3] 2 :=
  ⟨by decide, (generate_deterministic_extension [3] 2 5 (by decide)).2⟩

/-- C3: whenever the submitted seed does not regenerate the expected block
bytes, `record` returns `InvalidSeed` and leaves the ledger unchanged. -/
theorem record_invalid_seed (st : Statement) (led : Ledger) (i : Nat)
    (seed target : List Nat) (ht : expectedBytes st i = some target)
    (hne : generate seed st.blockSize ≠ target) :
    record st led i seed = (.InvalidSeed, led) := by
  simp [record, ht, hne]

/-- C3 witness: the seed `[1]` does not regenerate the demo statement's
only block and is rejected without touching the empty ledger. -/
theorem record_invalid_seed_witness :
    (expectedBytes demoStatement 0 = some (generate [7] 4) ∧
      generate [1] demoStatement.blockSize ≠ generate [7] 4) ∧
    record demoStatement [] 0 [1] = (.InvalidSeed, []) :=
  ⟨⟨by decide, by decide⟩,
    record_invalid_seed demoStatement [] 0 [1] (generate [7] 4) (by decide)
      (by decide)⟩

/-- C4, counterexample: it is not true that every later `record` call for
an accepted index returns `Rejected(AlreadyMined)`: a later call whose
seed fails verification returns `InvalidSeed` instead (the verification
gate fires first, as the spec's section 8 demands it "always" does). -/
theorem record_always_alreadymined_counterexample :
    (record demoStatement [] 0 [7]).1 = .Accepted ∧
    (record demoStatement (record demoStatement [] 0 [7]).2 0 [1]).1 ≠
      .RejectedAlreadyMined := by
  decide

/-- C4 (amended): once `record` returns `Accepted` for an index, the index
stays mined with an unchanged stored seed through any sequence of later
calls, no later call for that index is ever `Accepted` again, and every
later call for that index whose seed verifies returns
`Rejected(AlreadyMined)`. -/
theorem record_accept_permanent (st : Statement) (led : Ledger) (i : Nat)
    (seed : List Nat) (h : (record st led i seed).1 = .Accepted)
    (calls : List (Nat × List Nat)) :
    (applyRecords st (record st led i seed).2 calls).lookup i = some seed ∧
    (∀ s, (record st (applyRecords st (record st led i seed).2 calls) i s).1 ≠
      .Accepted) ∧
    (∀ s t, expectedBytes st i = some t → generate s st.blockSize = t →
      (record st (applyRecords st (record st led i seed).2 calls) i s).1 =
        .RejectedAlreadyMined) := by
  obtain ⟨h2, hnone⟩ := record_accepted_inv st led i seed h
  have hbase : (record st led i seed).2.lookup i = some seed := by
    rw [h2]
    simp [List.lookup]
  have hkeep := applyRecords_preserves_lookup st calls _ i seed hbase
  exact ⟨hkeep,
    fun s => record_mined_not_accepted st _ i s seed hkeep,
    fun s t ht hg => record_mined_valid_rejected st _ i s seed t hkeep ht hg⟩

/-- C4 witness: after accepting seed `[7]` at index 0 of the demo
statement, two further submissions leave the stored seed unchanged. -/
theorem record_accept_permanent_witness :
    (record demoStatement [] 0 [7]).1 = .Accepted ∧
    (applyRecords demoStatement (record demoStatement [] 0 [7]).2
      [(0, [9]), (1, [2])]).lookup 0 = some [7] :=
  ⟨by decide,
    (record_accept_permanent demoStatement [] 0 [7] (by decide)
      [(0, [9]), (1, [2])]).1⟩

/-- C5: for block size `≥ 1`, `split` produces exactly
`ceil(len(payload) / block_size)` microblocks, each exactly `block_size`
bytes (the final one zero-padded, so that the concatenation is the payload
followed by zero padding), and the empty payload yields zero blocks. -/
theorem split_spec (p : List Nat) (bs : Nat) (hbs : 1 ≤ bs)
    (blocks : List (List Nat)) (h : split p bs = .ok blocks) :
    blocks.length = p.length ⌈/⌉ bs ∧
    (∀ b ∈ blocks, b.length = bs) ∧
    (∃ k, blocks.flatten = p ++ List.replicate k 0) ∧
    (p = [] → blocks = []) := by
  have hb : blocks = splitBlocks p bs := by
    simp [split, Nat.not_lt.mpr hbs] at h
    exact h.symm
  subst hb
  refine ⟨?_, ?_, ?_, ?_⟩
  · rw [Nat.ceilDiv_eq_add_pred_div]
    exact splitBlocks_length p bs hbs
  · exact fun b hb2 => splitBlocks_block_length p bs b hb2
  · exact splitBlocks_flatten p bs hbs
  · intro hp
    subst hp
    rfl

/-- C5 witness: a 5-byte payload with block size 2 gives three blocks,
the final one zero-padded. -/
theorem split_spec_witness :
    ((1 : Nat) ≤ 2 ∧ split [1, 2, 3, 4, 5] 2 = .ok [[1, 2], [3, 4], [5, 0]]) ∧
    ([[1, 2], [3, 4], [5, 0]] : List (List Nat)).length =
      ([1, 2, 3, 4, 5] : List Nat).length ⌈/⌉ 2 :=
  ⟨⟨by decide, by rfl⟩,
    (split_spec [1, 2, 3, 4, 5] 2 (by decide) [[1, 2], [3, 4], [5, 0]]
      (by rfl)).1⟩

/-- C6: for a fully mined statement (with nonempty payload, mirroring the
truthiness guard in the source), the reconstruction's compression metric -
computed as the source does, `round(((original - seeds) / original) * 100)`
- equals the spec's `round(100 * (1 - total_seed_bytes /
total_original_bytes))`. -/
theorem compression_percent_formula (st : Statement) (led : Ledger)
    (ho : 1 ≤ st.payload.length) (hall : allMined st led = true) :
    (reconstruct st led).compressionPercent =
      some (round ((100 : ℚ) *
        (1 - (totalSeedBytes led (blockCount st) : ℚ) /
          (st.payload.length : ℚ)))) := by
  have hcond : allMined st led = true ∧ st.payload.length ≠ 0 :=
    ⟨hall, by omega⟩
  have h0 : (st.payload.length : ℚ) ≠ 0 := Nat.cast_ne_zero.mpr (by omega)
  simp only [reconstruct]
  rw [if_pos hcond]
  unfold compressionPct blockCount
  have harg : (((st.payload.length : ℚ) -
      (totalSeedBytes led (splitBlocks st.payload st.blockSize).length : ℚ)) /
        (st.payload.length : ℚ)) * 100 =
      (100 : ℚ) *
        (1 - (totalSeedBytes led (splitBlocks st.payload st.blockSize).length : ℚ) /
          (st.payload.length : ℚ)) := by
    field_simp
    ring
  rw [harg]

/-- C6 witness: the fully mined demo statement (4 payload bytes, one
1-byte seed). -/
theorem compression_percent_formula_witness :
    ((1 : Nat) ≤ demoStatement.payload.length ∧
      allMined demoStatement [(0, [7])] = true) ∧
    (reconstruct demoStatement [(0, [7])]).compressionPercent =
      some (round ((100 : ℚ) *
        (1 - (totalSeedBytes [(0, [7])] (blockCount demoStatement) : ℚ) /
          (demoStatement.payload.length : ℚ)))) :=
  ⟨⟨by decide, by decide⟩,
    compression_percent_formula demoStatement [(0, [7])] (by decide)
      (by decide)⟩

/-- C7: `split` rejects every block size below 1 (i.e. zero, as sizes are
non-negative) with `InvalidConfig`, producing no blocks. -/
theorem split_invalid_config (p : List Nat) (bs : Nat) (h : bs < 1) :
    split p bs = .error .InvalidConfig := by
  simp [split, h]

/-- C7 witness: block size 0 is rejected. -/
theorem split_invalid_config_witness :
    (0 : Nat) < 1 ∧ split [1, 2, 3] 0 = .error .InvalidConfig :=
  ⟨by decide, split_invalid_config [1, 2, 3] 0 (by decide)⟩

/-- C8: a statement with `N` blocks of which `K < N` are mined reports a
status with exactly `K` entries marked mined and `N - K` marked pending,
and the compression metric is omitted. -/
theorem status_partial_counts (st : Statement) (led : Ledger)
    (h : minedCount st led < blockCount st) :
    ((statusOf st led).filter fun e => e.mined).length = minedCount st led ∧
    ((statusOf st led).filter fun e => !e.mined).length =
      blockCount st - minedCount st led ∧
    (reconstruct st led).compressionPercent = none := by
  have h1 : ((statusOf st led).filter fun e => e.mined).length =
      ((List.range (blockCount st)).filter
        fun i => (led.lookup i).isSome).length := by
    unfold statusOf
    rw [List.filter_map, List.length_map]
    rfl
  have h2 : ((statusOf st led).filter fun e => !e.mined).length =
      ((List.range (blockCount st)).filter
        fun i => !(led.lookup i).isSome).length := by
    unfold statusOf
    rw [List.filter_map, List.length_map]
    rfl
  have hsum := length_filter_add_length_filter_neg
    (List.range (blockCount st)) (fun i => (led.lookup i).isSome)
  simp only [List.length_range] at hsum
  have hne : ¬(allMined st led = true ∧ st.payload.length ≠ 0) := by
    rintro ⟨hall, -⟩
    unfold allMined at hall
    have hmem := List.all_eq_true.mp hall
    have hKN : minedCount st led = blockCount st := by
      unfold minedCount
      rw [List.filter_eq_self.mpr hmem, List.length_range]
    omega
  refine ⟨h1, ?_, ?_⟩
  · rw [h2]
    unfold minedCount at h ⊢
    omega
  · simp only [reconstruct]
    rw [if_neg hne]

/-- C8 witness: three blocks, one mined. -/
theorem status_partial_counts_witness :
    minedCount pendingDemo [(1, [5])] < blockCount pendingDemo ∧
    (reconstruct pendingDemo [(1, [5])]).compressionPercent = none :=
  ⟨by decide,
    (status_partial_counts pendingDemo [(1, [5])] (by decide)).2.2⟩

/-- C9: `decodeBlock` is total in this embedding - the `atob` failure is
caught and falls back to hexadecimal pair parsing with unparseable pairs
coerced to zero - and every element it returns is a byte below 256. -/
theorem decodeBlock_total_bytes (encoded : List Char) :
    ∀ b ∈ decodeBlock encoded, b < 256 := by
  intro b hb
  unfold decodeBlock at hb
  cases hat : atob encoded with
  | some bytes =>
    rw [hat] at hb
    exact atob_bytes_lt encoded bytes hat b hb
  | none =>
    rw [hat] at hb
    exact hexFallback_lt encoded b hb

/-- C9 witness: the input made of two minus signs fails base64 decoding,
parses to NaN in the hex fallback, and is coerced to the zero byte. -/
theorem decodeBlock_total_bytes_witness :
    (0 : Nat) ∈ decodeBlock ['-', '-'] ∧ (0 : Nat) < 256 :=
  ⟨by decide, decodeBlock_total_bytes ['-', '-'] 0 (by decide)⟩

/-- C10: the pending view renders only statements whose `finalized` flag is
falsy, and a non-array response is treated as the empty list. -/
theorem pendingStatements_not_finalized (res : ApiResponse) :
    (∀ s ∈ pendingStatements res, s.finalized = false) ∧
    pendingStatements .nonArray = [] := by
  refine ⟨fun s hs => ?_, rfl⟩
  have hmem := List.of_mem_filter hs
  simpa using hmem

/-- C10 witness: of two fetched statements only the unfinalized one is
rendered. -/
theorem pendingStatements_not_finalized_witness :
    (⟨"a", false⟩ : StmtView) ∈
      pendingStatements (.arr [⟨"a", false⟩, ⟨"b", true⟩]) ∧
    (⟨"a", false⟩ : StmtView).finalized = false :=
  ⟨by decide,
    (pendingStatements_not_finalized (.arr [⟨"a", false⟩, ⟨"b", true⟩])).1 _
      (by decide)⟩

end Helix
